import Mathlib

/-!
Verification of the `loopback-component-storage` streaming file-transfer
gateway: a shallow embedding of the name validator, the filesystem storage
provider (`FileSystemProvider`) and the upload/download handlers
(`storage-handler.js`), together with theorems settling the specification
claims about them.

Conventions of the embedding:
* JavaScript strings are Lean `String`s (lists of characters).
* Byte buffers are `List Nat`.
* Callback-style fallible operations return `Except String α` or `Option`.
* The order of validations, path constructions and filesystem calls made by
  a provider operation is captured as an explicit `List Step` trace, read off
  the source line by line.
-/

namespace Storage

/-! ## Name validator (`validateName` in the filesystem provider)

The source uses two regular expressions:
`containsDotDotPaths = /(^|[\\\/])\.\.([\\\/]|$)/` and
`namePattern = new RegExp('[^' + path.sep + '/]+')` (with POSIX
`path.sep = '/'` the class is `[^/]`). -/

/-- The separators recognised by the dot-dot regular expression: `[\\\/]`. -/
def isSep (c : Char) : Bool := c = '/' || c = '\\'

/-- Whether the character list starts with `..` followed by a separator or by
the end of the string: the `\.\.([\\\/]|$)` part of `containsDotDotPaths`. -/
def dotdotHere : List Char → Bool
  | c1 :: c2 :: rest =>
    c1 = '.' && c2 = '.' &&
      (match rest with
       | [] => true
       | c :: _ => isSep c)
  | _ => false

/-- Scan for `(^|[\\\/])\.\.([\\\/]|$)`: `atBoundary` records whether the
current position is the start of the string or is preceded by a separator. -/
def hasDotDotAux : List Char → Bool → Bool
  | [], _ => false
  | c :: rest, atBoundary =>
    (atBoundary && dotdotHere (c :: rest)) || hasDotDotAux rest (isSep c)

/-- `containsDotDotPaths.test(name)`. -/
def containsDotDotPaths (s : String) : Bool := hasDotDotAux s.data true

/-- `namePattern.exec(name)` for the pattern `[^/]+`: the index and length of
the first maximal run of non-`'/'` characters, `none` when there is none. -/
def namePatternExec : List Char → Option (Nat × Nat)
  | [] => none
  | c :: rest =>
    if c = '/' then
      match namePatternExec rest with
      | none => none
      | some (i, len) => some (i + 1, len)
    else
      some (0, (List.takeWhile (fun d => d ≠ '/') (c :: rest)).length)

/-- `validateName(name)`'s boolean result: `false` when the name is falsy or
contains a bounded `..`; otherwise `true` iff the `namePattern` match starts
at index 0 and spans the whole name. -/
def validateName (name : String) : Bool :=
  if name = "" || containsDotDotPaths name then false
  else
    match namePatternExec name.data with
    | some (i, len) => i = 0 && len = name.length
    | none => false

/-- The error message `validateName` hands to its callback (or logs) when the
name is rejected; `none` when the name is accepted. The first branch uses the
message `'Invalid name: %s'`, the second `'{{FileSystemProvider}}: Invalid
name: %s'`. -/
def validateNameError (name : String) : Option String :=
  if name = "" || containsDotDotPaths name then
    some ("Invalid name: " ++ name)
  else
    match namePatternExec name.data with
    | some (i, len) =>
      if i = 0 && len = name.length then none
      else some ("FileSystemProvider: " ++ ("Invalid name: " ++ name))
    | none => some ("FileSystemProvider: " ++ ("Invalid name: " ++ name))

/-! Spec-side characterisation (§4.1 of the specification), to be compared
with the implementation above. -/

/-- Modelled from the spec: the name contains an occurrence of a
parent-directory reference `..` bounded by path separators or by the string
start/end. -/
def SpecHasDotDotSegment (s : String) : Prop :=
  ∃ pre post : List Char,
    s.data = pre ++ '.' :: '.' :: post ∧
    (pre = [] ∨ ∃ pre₀ c, pre = pre₀ ++ [c] ∧ isSep c = true) ∧
    (post = [] ∨ ∃ c post₀, post = c :: post₀ ∧ isSep c = true)

/-- Modelled from the spec: the name is a single path segment spanning its
entire length — non-empty with no embedded path-separator character. -/
def SpecSingleSegment (s : String) : Prop :=
  s.data ≠ [] ∧ ∀ c ∈ s.data, c ≠ '/'

/-- `dotdotHere` holds exactly when the list starts with two dots followed by
a separator or the end. -/
theorem dotdotHere_iff (cs : List Char) :
    dotdotHere cs = true ↔
      ∃ post, cs = '.' :: '.' :: post ∧
        (post = [] ∨ ∃ c post₀, post = c :: post₀ ∧ isSep c = true) := by
  constructor
  · intro h
    rcases cs with _ | ⟨c1, _ | ⟨c2, rest⟩⟩
    · simp [dotdotHere] at h
    · simp [dotdotHere] at h
    · simp only [dotdotHere, Bool.and_eq_true, decide_eq_true_eq] at h
      obtain ⟨⟨rfl, rfl⟩, htail⟩ := h
      rcases rest with _ | ⟨c, post₀⟩
      · exact ⟨[], rfl, Or.inl rfl⟩
      · exact ⟨c :: post₀, rfl, Or.inr ⟨c, post₀, rfl, htail⟩⟩
  · rintro ⟨post, rfl, hpost⟩
    rcases hpost with rfl | ⟨c, post₀, rfl, hc⟩
    · rfl
    · simp [dotdotHere, hc]

/-- Boundary condition tracked by `hasDotDotAux`'s accumulator. -/
def LeftBoundary (pre : List Char) (atBoundary : Bool) : Prop :=
  (pre = [] ∧ atBoundary = true) ∨ ∃ pre₀ c, pre = pre₀ ++ [c] ∧ isSep c = true

/-- The scanner `hasDotDotAux` finds a match exactly when the list splits as
`pre ++ ".." ++ post` with a separator boundary on both sides (the left
boundary may also be the scan start when `atBoundary` is set). -/
theorem hasDotDotAux_iff (cs : List Char) (b : Bool) :
    hasDotDotAux cs b = true ↔
      ∃ pre post, cs = pre ++ '.' :: '.' :: post ∧
        LeftBoundary pre b ∧
        (post = [] ∨ ∃ c post₀, post = c :: post₀ ∧ isSep c = true) := by
  induction cs generalizing b with
  | nil =>
    constructor
    · intro h
      simp [hasDotDotAux] at h
    · rintro ⟨pre, post, h, -, -⟩
      exact absurd h (by simp)
  | cons c rest ih =>
    simp only [hasDotDotAux, Bool.or_eq_true, Bool.and_eq_true]
    constructor
    · rintro (⟨hb, hd⟩ | h)
      · obtain ⟨post, heq, hpost⟩ := (dotdotHere_iff _).mp hd
        exact ⟨[], post, heq, Or.inl ⟨rfl, hb⟩, hpost⟩
      · obtain ⟨pre, post, heq, hleft, hpost⟩ := (ih (isSep c)).mp h
        refine ⟨c :: pre, post, by simp [heq], ?_, hpost⟩
        rcases hleft with ⟨rfl, hsep⟩ | ⟨pre₀, d, rfl, hd⟩
        · exact Or.inr ⟨[], c, rfl, hsep⟩
        · exact Or.inr ⟨c :: pre₀, d, rfl, hd⟩
    · rintro ⟨pre, post, heq, hleft, hpost⟩
      rcases hleft with ⟨rfl, rfl⟩ | ⟨pre₀, d, rfl, hd⟩
      · left
        refine ⟨rfl, (dotdotHere_iff _).mpr ⟨post, ?_, hpost⟩⟩
        simpa using heq
      · right
        rcases pre₀ with _ | ⟨p, pre₁⟩
        · simp only [List.nil_append, List.cons_append, List.cons.injEq] at heq
          obtain ⟨rfl, hrest⟩ := heq
          exact (ih (isSep c)).mpr ⟨[], post, hrest, Or.inl ⟨rfl, hd⟩, hpost⟩
        · simp only [List.cons_append, List.append_assoc, List.cons.injEq] at heq
          obtain ⟨rfl, hrest⟩ := heq
          exact (ih (isSep c)).mpr ⟨pre₁ ++ [d], post, by simpa using hrest,
            Or.inr ⟨pre₁, d, rfl, hd⟩, hpost⟩

/-- `containsDotDotPaths` agrees with the spec's bounded-`..` description. -/
theorem containsDotDotPaths_iff (s : String) :
    containsDotDotPaths s = true ↔ SpecHasDotDotSegment s := by
  unfold containsDotDotPaths SpecHasDotDotSegment
  rw [hasDotDotAux_iff]
  constructor
  · rintro ⟨pre, post, h, hleft, hpost⟩
    refine ⟨pre, post, h, ?_, hpost⟩
    rcases hleft with ⟨rfl, -⟩ | h'
    · exact Or.inl rfl
    · exact Or.inr h'
  · rintro ⟨pre, post, h, hleft, hpost⟩
    refine ⟨pre, post, h, ?_, hpost⟩
    rcases hleft with rfl | h'
    · exact Or.inl ⟨rfl, rfl⟩
    · exact Or.inr h'

/-- The full-match test `validateName` performs on the result of
`namePattern.exec` accepts exactly the non-empty names with no `'/'`. -/
theorem namePattern_check_iff (cs : List Char) :
    (match namePatternExec cs with
     | some (i, len) => i = 0 && len = cs.length
     | none => false) = true ↔ (cs ≠ [] ∧ ∀ c ∈ cs, c ≠ '/') := by
  cases cs with
  | nil => simp [namePatternExec]
  | cons c rest =>
    by_cases hc : c = '/'
    · subst hc
      simp only [namePatternExec, if_pos rfl]
      constructor
      · intro h
        exfalso
        cases hres : namePatternExec rest with
        | none => rw [hres] at h; simp at h
        | some p =>
          obtain ⟨i, len⟩ := p
          rw [hres] at h
          simp at h
      · rintro ⟨-, hall⟩
        exact absurd rfl (hall '/' (List.mem_cons_self _ _))
    · simp only [namePatternExec, if_neg hc]
      constructor
      · intro h
        simp only [Bool.and_eq_true, decide_eq_true_eq] at h
        obtain ⟨-, hlen⟩ := h
        have hpref : List.takeWhile (fun d => decide (d ≠ '/')) (c :: rest) <+: c :: rest :=
          List.takeWhile_prefix _
        have heq := hpref.eq_of_length hlen
        refine ⟨by simp, fun x hx => ?_⟩
        have := List.takeWhile_eq_self_iff.mp heq x hx
        simpa using this
      · rintro ⟨-, hall⟩
        have heq : List.takeWhile (fun d => decide (d ≠ '/')) (c :: rest) = c :: rest :=
          List.takeWhile_eq_self_iff.mpr (fun x hx => by simpa using hall x hx)
        rw [heq]
        simp

/-- A name (as a string) is empty iff its character list is. -/
theorem string_eq_empty_iff (s : String) : s = "" ↔ s.data = [] := by
  constructor
  · rintro rfl; rfl
  · intro h; cases s; simp_all

/-- The error messages produced on rejection all mention `Invalid name`. -/
def MentionsInvalidName (m : String) : Prop :=
  ∃ pre tail, m = pre ++ ("Invalid name: " ++ tail)

/-- C2. The name validator accepts a name iff it is non-empty, contains no
parent-directory reference `..` bounded by path separators or the string
start/end, and is a single path segment spanning its entire length with no
embedded separator; every rejected name produces an `Invalid name` error. -/
theorem validateName_spec (s : String) :
    (validateName s = true ↔
      (s ≠ "" ∧ ¬ SpecHasDotDotSegment s ∧ SpecSingleSegment s)) ∧
    (validateName s = false →
      ∃ m, validateNameError s = some m ∧ MentionsInvalidName m) := by
  constructor
  · by_cases hempty : s = ""
    · subst hempty
      constructor
      · intro h
        exact absurd h (by decide)
      · rintro ⟨hne, -⟩
        exact absurd rfl hne
    · by_cases hdd : containsDotDotPaths s = true
      · have hfalse : validateName s = false := by
          unfold validateName
          rw [if_pos (by simp [hempty, hdd])]
        rw [hfalse]
        constructor
        · intro h
          simp at h
        · rintro ⟨-, hno, -⟩
          exact absurd ((containsDotDotPaths_iff s).mp hdd) hno
      · have hform : validateName s =
            (match namePatternExec s.data with
             | some (i, len) => i = 0 && len = s.data.length
             | none => false) := by
          unfold validateName
          rw [if_neg (by simp [hempty, hdd])]
          rfl
        rw [hform, namePattern_check_iff s.data]
        unfold SpecSingleSegment
        constructor
        · rintro ⟨hne, hall⟩
          refine ⟨hempty, ?_, hne, hall⟩
          intro hspec
          exact hdd ((containsDotDotPaths_iff s).mpr hspec)
        · rintro ⟨-, -, hne, hall⟩
          exact ⟨hne, hall⟩
  · intro hfail
    unfold validateName at hfail
    unfold validateNameError
    by_cases hpre : s = "" ∨ containsDotDotPaths s = true
    · rw [if_pos (by simpa using hpre)]
      exact ⟨_, rfl, "", s, by simp⟩
    · rw [if_neg (by simpa using hpre)] at hfail ⊢
      cases hres : namePatternExec s.data with
      | none =>
        exact ⟨_, rfl, "FileSystemProvider: ", s, rfl⟩
      | some p =>
        obtain ⟨i, len⟩ := p
        rw [hres] at hfail
        simp only [hres]
        rw [if_neg (by simpa using hfail)]
        exact ⟨_, rfl, "FileSystemProvider: ", s, rfl⟩

/-- Witness for the rejected-name branch of `validateName_spec` at the
concrete traversal name `a/../b`. -/
theorem validateName_spec_witness :
    ∃ m, validateNameError "a/../b" = some m ∧ MentionsInvalidName m :=
  (validateName_spec "a/../b").2 (by decide)

/-! ## Metadata projection (`populateMetadata`)

The provider builds every public `Container`/`File` record from a base
property object (`{name}`, resp. `{container, name}`) and then copies stat
fields through `populateMetadata`, whose `switch` admits only `size`,
`atime`, `mtime` and `ctime`. The OS stat structure is modelled as an
association list from property names to values. -/

/-- The stat fields admitted by the `switch` in `populateMetadata`. -/
def metadataKeys : List String := ["size", "atime", "mtime", "ctime"]

/-- `populateMetadata(stat, props)`: iterate over the stat's properties in
order and copy the value for each key the `switch` admits. -/
def populateMetadata {α : Type} (stat : List (String × α))
    (props : List (String × α)) : List (String × α) :=
  stat.foldl (fun acc kv => if kv.1 ∈ metadataKeys then acc ++ [kv] else acc) props

/-- The property object `getContainers`/`createContainer`/`getContainer`
build: `{name: name}` plus the copied metadata. -/
def containerProps {α : Type} (nameVal : α) (stat : List (String × α)) :
    List (String × α) :=
  populateMetadata stat [("name", nameVal)]

/-- The property object `getFiles`/`getFile` build:
`{container: container, name: name}` plus the copied metadata. -/
def fileProps {α : Type} (containerVal nameVal : α)
    (stat : List (String × α)) : List (String × α) :=
  populateMetadata stat [("container", containerVal), ("name", nameVal)]

/-- Every key of a populated property object comes from the base object or
from the admitted metadata keys. -/
theorem populateMetadata_keys {α : Type} (stat props : List (String × α)) :
    ∀ k ∈ (populateMetadata stat props).map Prod.fst,
      k ∈ props.map Prod.fst ∨ k ∈ metadataKeys := by
  induction stat generalizing props with
  | nil => intro k hk; exact Or.inl hk
  | cons kv rest ih =>
    intro k hk
    have hstep : populateMetadata (kv :: rest) props =
        populateMetadata rest (if kv.1 ∈ metadataKeys then props ++ [kv] else props) := rfl
    rw [hstep] at hk
    rcases ih _ k hk with hbase | hmeta
    · by_cases hkv : kv.1 ∈ metadataKeys
      · rw [if_pos hkv] at hbase
        simp only [List.map_append, List.mem_append] at hbase
        rcases hbase with h | h
        · exact Or.inl h
        · simp only [List.map_cons, List.map_nil, List.mem_singleton] at h
          exact Or.inr (h ▸ hkv)
      · rw [if_neg hkv] at hbase
        exact Or.inl hbase
    · exact Or.inr hmeta

/-- C9. Container and file records carry, besides `name` (and the file's
`container` back-reference), only the stat fields `size`, `atime`, `mtime`
and `ctime`; ownership fields such as `uid`/`gid` are never copied. -/
theorem metadata_sanitized {α : Type} (c n : α) (stat : List (String × α)) :
    (∀ k ∈ (containerProps n stat).map Prod.fst,
        k ∈ "name" :: metadataKeys) ∧
    (∀ k ∈ (fileProps c n stat).map Prod.fst,
        k ∈ "container" :: "name" :: metadataKeys) ∧
    "uid" ∉ (containerProps n stat).map Prod.fst ∧
    "gid" ∉ (containerProps n stat).map Prod.fst ∧
    "uid" ∉ (fileProps c n stat).map Prod.fst ∧
    "gid" ∉ (fileProps c n stat).map Prod.fst := by
  have hc : ∀ k ∈ (containerProps n stat).map Prod.fst, k ∈ "name" :: metadataKeys := by
    intro k hk
    rcases populateMetadata_keys stat [("name", n)] k hk with hbase | hmeta
    · simp only [List.map_cons, List.map_nil, List.mem_singleton] at hbase
      simp [hbase]
    · exact List.mem_cons_of_mem _ hmeta
  have hf : ∀ k ∈ (fileProps c n stat).map Prod.fst,
      k ∈ "container" :: "name" :: metadataKeys := by
    intro k hk
    rcases populateMetadata_keys stat [("container", c), ("name", n)] k hk with hbase | hmeta
    · simp only [List.map_cons, List.map_nil, List.mem_cons, List.mem_singleton,
        List.not_mem_nil, or_false] at hbase
      rcases hbase with rfl | rfl
      · simp
      · simp
    · exact List.mem_cons_of_mem _ (List.mem_cons_of_mem _ hmeta)
  refine ⟨hc, hf, ?_, ?_, ?_, ?_⟩
  · intro h
    have := hc _ h
    simp [metadataKeys] at this
  · intro h
    have := hc _ h
    simp [metadataKeys] at this
  · intro h
    have := hf _ h
    simp [metadataKeys] at this
  · intro h
    have := hf _ h
    simp [metadataKeys] at this

/-- Witness for `metadata_sanitized` at a concrete stat structure carrying
`uid`/`gid` entries (values as integers). -/
theorem metadata_sanitized_witness :
    "uid" ∉ (containerProps (0 : Int)
      [("size", 7), ("uid", 1000), ("gid", 1000), ("mtime", 5)]).map Prod.fst :=
  (metadata_sanitized (0 : Int) 0
    [("size", 7), ("uid", 1000), ("gid", 1000), ("mtime", 5)]).2.2.1

/-! ## Download error translation (`processError` in `storage-handler.js`) -/

/-- A JavaScript error object with the fields the handler reads/writes. -/
structure JsError where
  code : Option String
  message : String
  statusCode : Option Nat
  status : Option Nat
deriving DecidableEq, Repr

/-- `processError(err, fileName)`: an `ENOENT` error gets status 404 and its
message replaced by `'File not found: ' + fileName`; other errors pass
through unchanged. -/
def processError (err : JsError) (fileName : String) : JsError :=
  if err.code = some "ENOENT" then
    { err with statusCode := some 404, status := some 404,
               message := "File not found: " ++ fileName }
  else err

/-- `path.join` on already-normalised segments: interpose `'/'`. -/
def pathJoin : List String → String
  | [] => ""
  | [s] => s
  | s :: rest => s ++ "/" ++ pathJoin rest

/-- One string occurs inside another (as a contiguous substring). -/
def StrContains (m sub : String) : Prop := sub.data <:+: m.data

/-- C7. A not-found (`ENOENT`) download error is delivered with status code
404 and a message that contains the requested file name but not the
absolute storage path of the file (the name being a single slash-free
segment, as every name that reaches the filesystem is). -/
theorem processError_enoent (err : JsError) (root container name : String)
    (hcode : err.code = some "ENOENT") (hname : ∀ c ∈ name.data, c ≠ '/') :
    (processError err name).statusCode = some 404 ∧
    (processError err name).status = some 404 ∧
    StrContains (processError err name).message name ∧
    ¬ StrContains (processError err name).message
        (pathJoin [root, container, name]) := by
  have hmsg : (processError err name).message = "File not found: " ++ name := by
    unfold processError
    rw [if_pos hcode]
  refine ⟨by unfold processError; rw [if_pos hcode], by unfold processError; rw [if_pos hcode], ?_, ?_⟩
  · rw [hmsg]
    unfold StrContains
    exact ⟨"File not found: ".data, [], by simp⟩
  · intro hsub
    have hslash : '/' ∈ (pathJoin [root, container, name]).data := by
      show '/' ∈ (root ++ "/" ++ pathJoin [container, name]).data
      simp
    have hmem : '/' ∈ (processError err name).message.data := hsub.subset hslash
    rw [hmsg] at hmem
    simp only [String.data_append, List.mem_append] at hmem
    rcases hmem with h | h
    · exact absurd h (by decide)
    · exact absurd rfl (hname '/' h)

/-- Witness for `processError_enoent`: the provider's `ENOENT` on
`root=/var/storage`, `container=album1`, `name=test.jpg`. -/
theorem processError_enoent_witness :
    (processError ⟨some "ENOENT", "ENOENT: no such file or directory, open /var/storage/album1/test.jpg", none, none⟩
        "test.jpg").statusCode = some 404 ∧
    (processError ⟨some "ENOENT", "ENOENT: no such file or directory, open /var/storage/album1/test.jpg", none, none⟩
        "test.jpg").status = some 404 ∧
    StrContains (processError ⟨some "ENOENT", "ENOENT: no such file or directory, open /var/storage/album1/test.jpg", none, none⟩
        "test.jpg").message "test.jpg" ∧
    ¬ StrContains (processError ⟨some "ENOENT", "ENOENT: no such file or directory, open /var/storage/album1/test.jpg", none, none⟩
        "test.jpg").message (pathJoin ["/var/storage", "album1", "test.jpg"]) :=
  processError_enoent _ "/var/storage" "album1" "test.jpg" rfl (by decide)

/-! ## Byte-range download
(`setupPartialDownload` in `storage-handler.js` and
`FileSystemProvider.prototype.download`)

The stored file content is a list of bytes; `fs.createReadStream` with
`start`/`end` options produces the inclusive byte window, and with no
options the whole file. -/

/-- `fs.createReadStream(filePath, fileOpts)`: the bytes produced, given the
optional inclusive `(start, end)` pair in `fileOpts`. -/
def createReadStreamBytes (content : List Nat) (opts : Option (Nat × Nat)) :
    List Nat :=
  match opts with
  | none => content
  | some (s, e) => (content.drop s).take (e + 1 - s)

/-- `FileSystemProvider.prototype.download`: `fileOpts` receives the
`start`/`end` pair only when `options.start` is truthy — a nonzero number.
(`if (options.start) { fileOpts.start = options.start; fileOpts.end =
options.end; }`) -/
def providerDownloadBytes (content : List Nat) (start? end? : Option Nat) :
    List Nat :=
  match start? with
  | some s =>
    if s ≠ 0 then
      createReadStreamBytes content (some (s, end?.getD (content.length - 1)))
    else
      createReadStreamBytes content none
  | none => createReadStreamBytes content none

/-- `setupPartialDownload` followed by the provider read: from the parsed
bounds of a `bytes=<start>-<end>` header and the stored content, the
response status, the declared `Content-Length` (`end - start + 1`) and the
bytes actually streamed. -/
def rangeDownload (content : List Nat) (rStart : Nat) (rEnd? : Option Nat) :
    Nat × Nat × List Nat :=
  let total := content.length
  let pend := match rEnd? with
    | some e => e
    | none => total - 1
  let chunksize := pend - rStart + 1
  (206, chunksize, providerDownloadBytes content (some rStart) (some pend))

/-- C1 fails on the code: for the declared range `bytes=0-99` on a file of
150 bytes, the handler declares status 206 with `Content-Length` 100, yet
the provider streams the whole file — `options.start = 0` is falsy, so the
`start`/`end` bounds are dropped and the response is not the first 100
bytes. -/
theorem rangeDownload_zero_start_bug :
    (rangeDownload (List.range 150) 0 (some 99)).1 = 206 ∧
    (rangeDownload (List.range 150) 0 (some 99)).2.1 = 100 ∧
    (rangeDownload (List.range 150) 0 (some 99)).2.2 = List.range 150 ∧
    (List.range 150).take 100 ≠ List.range 150 := by
  refine ⟨rfl, rfl, rfl, ?_⟩
  intro h
  have := congrArg List.length h
  simp at this

/-! ## Upload pipeline: part classification (`form.handlePart`)

A multipart part either carries no filename (or an empty one) and is a plain
form field, or carries a non-empty filename and is a file part. Field text
is decoded chunk by chunk (`value += decoder.write(buffer)`) and collected
under the part's field name as an ordered sequence. -/

/-- A multipart part as `handlePart` sees it: `filename` is `none` for
`part.filename === undefined` and `some ""` for `part.filename === ''`;
`chunks` is the decoded text of its data events (used for field parts). -/
structure PartInput where
  filename : Option String
  name : String
  chunks : List String
deriving DecidableEq, Repr

/-- The classification test at the top of `handlePart`:
`part.filename === undefined || part.filename === ''`. -/
def isFieldPart (p : PartInput) : Bool :=
  p.filename = none || p.filename = some ""

/-- Record one field value under its name: push onto the existing ordered
sequence, or start a new one. -/
def addField (fields : List (String × List String)) (name value : String) :
    List (String × List String) :=
  if (fields.lookup name).isSome then
    fields.map (fun kv => if kv.1 = name then (kv.1, kv.2 ++ [value]) else kv)
  else fields ++ [(name, [value])]

/-- Process the parts of one upload in arrival order, tracking the `fields`
aggregate and the number of backend write streams opened (one per file
part). -/
def handleParts (parts : List PartInput) : List (String × List String) × Nat :=
  parts.foldl
    (fun acc p =>
      if isFieldPart p then (addField acc.1 p.name (String.join p.chunks), acc.2)
      else (acc.1, acc.2 + 1))
    ([], 0)

/-- The `fields` aggregate produced by a sequence of field parts alone. -/
def fieldAccum (parts : List PartInput) : List (String × List String) :=
  parts.foldl (fun fs p => addField fs p.name (String.join p.chunks)) []

/-- Generalisation of `handleParts` to a running accumulator. -/
theorem handleParts_go (parts : List PartInput)
    (fs : List (String × List String)) (w : Nat) :
    parts.foldl
      (fun acc p =>
        if isFieldPart p then (addField acc.1 p.name (String.join p.chunks), acc.2)
        else (acc.1, acc.2 + 1))
      (fs, w) =
    ((parts.filter isFieldPart).foldl
        (fun fs p => addField fs p.name (String.join p.chunks)) fs,
      w + (parts.filter (fun p => !isFieldPart p)).length) := by
  induction parts generalizing fs w with
  | nil => simp
  | cons p rest ih =>
    by_cases hp : isFieldPart p
    · simp only [List.foldl_cons, if_pos hp, List.filter_cons, hp]
      rw [ih]
      simp [hp]
    · simp only [List.foldl_cons, if_neg hp, List.filter_cons]
      rw [ih]
      simp only [Bool.not_eq_true] at hp
      simp [hp]
      omega

/-- C10. A part whose filename is the empty string is classified as a plain
form field, exactly like a part with no filename: the fields aggregate is
built, in arrival order, from precisely the parts with filename `none` or
`""`, and one backend write stream is opened per remaining part (the file
parts, those with a non-empty filename). -/
theorem handleParts_classification (parts : List PartInput) :
    (handleParts parts).1 = fieldAccum (parts.filter isFieldPart) ∧
    (handleParts parts).2 = (parts.filter (fun p => !isFieldPart p)).length ∧
    (∀ p : PartInput,
      isFieldPart p = true ↔ (p.filename = none ∨ p.filename = some "")) := by
  refine ⟨?_, ?_, ?_⟩
  · unfold handleParts fieldAccum
    rw [handleParts_go]
  · unfold handleParts
    rw [handleParts_go]
    simp
  · intro p
    unfold isFieldPart
    rcases p with ⟨f, n, c⟩
    simp

/-! ## Upload pipeline: per-file policy decisions (`form.handlePart`, file
branch)

For a file part, `handlePart` builds the `file` record, applies the renaming
options, and then runs the extension and content-type checks. Only when both
pass does it open the backend write stream (`provider.upload`). -/

/-- The mutable `file` object `handlePart` assembles for a file part. -/
structure FileRecord where
  container : String
  name : String
  type : String
  field : String
  originalFilename : Option String := none
  acl : Option String := none
deriving DecidableEq, Repr

/-- A static-value-or-function upload option. A computed option receives the
file record (the request/response arguments carry nothing this embedding
tracks). -/
inductive OptionValue (α : Type) where
  | absent
  | fixed (v : α)
  | computed (f : FileRecord → α)

/-- Resolve an option at decision time
(`'function' === typeof o ? o(file, req, res) : o`). -/
def OptionValue.resolve {α : Type} : OptionValue α → FileRecord → Option α
  | .absent, _ => none
  | .fixed v, _ => some v
  | .computed f, file => some (f file)

/-- The upload options `handlePart` consults for a file part.
`exports.upload` installs the 10 MiB default for `maxFileSize` before
parsing begins. -/
structure UploadOptions where
  getFilename : Option (FileRecord → String) := none
  nameConflict : Option String := none
  forbidExtnames : Option (List String) := none
  allowedContentTypes : OptionValue (List String) := .absent
  maxFileSize : OptionValue Nat := .fixed (10 * 1024 * 1024)
  acl : OptionValue String := .absent

/-- The errors `self._error` can raise for a file part before or during
streaming. -/
inductive UploadError where
  | extnameForbidden (ext : String) (forbidden : List String)
  | contentTypeNotAllowed (t : String) (allowed : List String)
  | sizeExceeded (received max : Nat)
deriving DecidableEq, Repr

/-- The `forbidExtnames` check: rejected when the configured non-empty list
contains the part's extension, compared case-insensitively. -/
def checkExtname (forbid : Option (List String)) (extname : String) :
    Option UploadError :=
  match forbid with
  | none => none
  | some list =>
    if list ≠ [] then
      if (list.map String.toLower).contains extname.toLower then
        some (.extnameForbidden extname list)
      else none
    else none

/-- The `allowedContentTypes` check: the option is resolved (a configured
function is called), and the part is rejected only when the resolved list is
non-empty (`Array.isArray(...) && length !== 0`) and does not contain the
declared content type (`indexOf(file.type) === -1`). -/
def checkContentTypes (allowed : OptionValue (List String))
    (file : FileRecord) : Option UploadError :=
  match allowed.resolve file with
  | none => none
  | some list =>
    if list ≠ [] then
      if list.contains file.type then none
      else some (.contentTypeNotAllowed file.type list)
    else none

/-- The renaming step: apply `getFilename` when configured, else generate a
unique name under `nameConflict: 'makeUnique'`, recording
`originalFilename` in either case. `extname` is the Node runtime's value of
`path.extname(part.filename)` and `uuidName` the generated `uuid.v4()`. -/
def computeFileRecord (opts : UploadOptions)
    (container filename extname mime fieldName uuidName : String) : FileRecord :=
  let file0 : FileRecord :=
    { container := container, name := filename, type := mime, field := fieldName }
  match opts.getFilename with
  | some f => { file0 with originalFilename := some filename, name := f file0 }
  | none =>
    if opts.nameConflict = some "makeUnique" then
      { file0 with originalFilename := some filename, name := uuidName ++ extname }
    else file0

/-- The effective `maxFileSize` for this file: `if (options.maxFileSize)`
skips a falsy (zero/unset) static value, and `if (maxFileSize)` later
disables metering when the resolved number is zero. -/
def resolveMaxFileSize (opt : OptionValue Nat) (file : FileRecord) : Option Nat :=
  let resolved : Option Nat :=
    match opt with
    | .absent => none
    | .fixed v => if v ≠ 0 then some v else none
    | .computed f => some (f file)
  match resolved with
  | some m => if m ≠ 0 then some m else none
  | none => none

/-- The decision phase of `handlePart` for a file part: build the record,
run the extension check then the content-type check; on success resolve the
effective size cap and ACL — only then is the backend write stream opened.
An `error` result is raised via `self._error` before `provider.upload` is
ever called. -/
def decideFilePart (opts : UploadOptions)
    (container filename extname mime fieldName uuidName : String) :
    Except UploadError (FileRecord × Option Nat) :=
  let file := computeFileRecord opts container filename extname mime fieldName uuidName
  match checkExtname opts.forbidExtnames extname with
  | some e => .error e
  | none =>
    match checkContentTypes opts.allowedContentTypes file with
    | some e => .error e
    | none =>
      let maxFS := resolveMaxFileSize opts.maxFileSize file
      let file :=
        match opts.acl.resolve file with
        | some a => { file with acl := some a }
        | none => file
      .ok (file, maxFS)

/-! ## Upload pipeline: streaming machine for one file part

Once accepted, a file part is a pipeline: each `data` chunk from the source
first runs the size-metering handler (registered only when the effective
`maxFileSize` is set), then the digest handler (`hash.update`,
`sha256.update`), then the pipe's write into the backend stream. On
end-of-part the handler calls `writer.end()` and finalises both digests; the
filesystem provider emits `'success'` on the write stream's `'finish'`, and
only that event makes `endFunc` append the file record. Digest values are
modelled by the exact byte sequence they were computed over. -/

/-- The events of one file part's lifetime. -/
inductive PartEv where
  | data (chunk : List Nat)
  | partEnd
  | writerFinish
  | writerClose
deriving DecidableEq, Repr

/-- The observable state of one file part's processing. `fsEntry` is the
backend object for the stored name (`none` when absent or deleted),
`delivered` the errors emitted by `IncomingForm._error`. -/
structure StreamState where
  formError : Option UploadError := none
  delivered : List UploadError := []
  writerOpened : Bool := false
  writerDestroyed : Bool := false
  writerEnded : Bool := false
  partEnded : Bool := false
  removeIssued : Bool := false
  fsEntry : Option (List Nat) := none
  fileSize : Nat := 0
  digestBytes : List Nat := []
  md5 : Option (List Nat) := none
  sha256 : Option (List Nat) := none
  appended : Bool := false
  appendedMd5 : Option (List Nat) := none
  appendedSha256 : Option (List Nat) := none
deriving DecidableEq, Repr

/-- `IncomingForm._error` (formidable) composed with the handler's
`form.on('error')` cleanup: the first error is recorded and emitted — later
calls find `this.error` set and are suppressed — and the emitted event
destroys the writer (when one exists) and issues
`provider.removeFile(container, form.filename)`, removing the partially
written backend object. -/
def formRaiseError (st : StreamState) (e : UploadError) : StreamState :=
  if st.formError.isSome then st
  else
    { st with
      formError := some e,
      delivered := st.delivered ++ [e],
      writerDestroyed := st.writerOpened,
      removeIssued := true,
      fsEntry := none }

/-- The size-metering `data` handler (registered only when the effective
`maxFileSize` is set): grow the byte counter and raise `sizeExceeded` when
it surpasses the cap. -/
def meterSize (maxFS : Option Nat) (st : StreamState) (len : Nat) : StreamState :=
  match maxFS with
  | none => st
  | some m =>
    let newSize := st.fileSize + len
    let st' := { st with fileSize := newSize }
    if m < newSize then formRaiseError st' (.sizeExceeded newSize m) else st'

/-- The digest `data` handler: `hash.update(buffer); sha256.update(buffer)`. -/
def updateDigests (st : StreamState) (chunk : List Nat) : StreamState :=
  { st with digestBytes := st.digestBytes ++ chunk }

/-- The pipe's write of the chunk into the backend stream; writes to a
destroyed stream are dropped. -/
def pipeWrite (st : StreamState) (chunk : List Nat) : StreamState :=
  if st.writerDestroyed then st
  else { st with fsEntry := some (st.fsEntry.getD [] ++ chunk) }

/-- One event of the per-part pipeline, under the effective `maxFileSize`.
The three `data` handlers run in registration order. -/
def stepPart (maxFS : Option Nat) (st : StreamState) : PartEv → StreamState
  | .data chunk => pipeWrite (updateDigests (meterSize maxFS st chunk.length) chunk) chunk
  | .partEnd =>
    { st with partEnded := true, writerEnded := true,
              md5 := some st.digestBytes, sha256 := some st.digestBytes }
  | .writerFinish =>
    { st with appended := true,
              appendedMd5 := st.md5, appendedSha256 := st.sha256 }
  | .writerClose => st

/-- Run a file part's event list. -/
def runPart (maxFS : Option Nat) (st : StreamState) (evs : List PartEv) :
    StreamState :=
  evs.foldl (stepPart maxFS) st

/-- The state right after `provider.upload` opened the backend write stream:
`fs.createWriteStream` has created the (empty) target object. -/
def initAccepted : StreamState := { writerOpened := true, fsEntry := some [] }

/-- The bytes a part's event list delivers from the source. -/
def partBytes (evs : List PartEv) : List Nat :=
  (evs.filterMap fun e =>
    match e with
    | .data c => some c
    | _ => none).flatten

/-- `runPart` unfolds one event at a time. -/
theorem runPart_cons (maxFS : Option Nat) (st : StreamState) (e : PartEv)
    (tr : List PartEv) :
    runPart maxFS st (e :: tr) = runPart maxFS (stepPart maxFS st e) tr := rfl

/-- `formRaiseError` never touches the digest, append or end-of-part
fields. -/
theorem formRaiseError_inert (st : StreamState) (e : UploadError) :
    (formRaiseError st e).md5 = st.md5 ∧
    (formRaiseError st e).sha256 = st.sha256 ∧
    (formRaiseError st e).partEnded = st.partEnded ∧
    (formRaiseError st e).writerEnded = st.writerEnded ∧
    (formRaiseError st e).appended = st.appended ∧
    (formRaiseError st e).appendedMd5 = st.appendedMd5 ∧
    (formRaiseError st e).appendedSha256 = st.appendedSha256 ∧
    (formRaiseError st e).digestBytes = st.digestBytes := by
  unfold formRaiseError
  split <;> simp

/-- `meterSize` never touches the digest, append or end-of-part fields. -/
theorem meterSize_inert (maxFS : Option Nat) (st : StreamState) (len : Nat) :
    (meterSize maxFS st len).md5 = st.md5 ∧
    (meterSize maxFS st len).sha256 = st.sha256 ∧
    (meterSize maxFS st len).partEnded = st.partEnded ∧
    (meterSize maxFS st len).writerEnded = st.writerEnded ∧
    (meterSize maxFS st len).appended = st.appended ∧
    (meterSize maxFS st len).appendedMd5 = st.appendedMd5 ∧
    (meterSize maxFS st len).appendedSha256 = st.appendedSha256 ∧
    (meterSize maxFS st len).digestBytes = st.digestBytes := by
  unfold meterSize
  rcases maxFS with - | m
  · simp
  · dsimp only
    split
    · exact formRaiseError_inert _ _
    · simp

/-- A `data` step only changes the size/error/filesystem fields and extends
the digested bytes by the chunk. -/
theorem stepPart_data_inert (maxFS : Option Nat) (st : StreamState)
    (c : List Nat) :
    (stepPart maxFS st (.data c)).md5 = st.md5 ∧
    (stepPart maxFS st (.data c)).sha256 = st.sha256 ∧
    (stepPart maxFS st (.data c)).partEnded = st.partEnded ∧
    (stepPart maxFS st (.data c)).writerEnded = st.writerEnded ∧
    (stepPart maxFS st (.data c)).appended = st.appended ∧
    (stepPart maxFS st (.data c)).appendedMd5 = st.appendedMd5 ∧
    (stepPart maxFS st (.data c)).appendedSha256 = st.appendedSha256 ∧
    (stepPart maxFS st (.data c)).digestBytes = st.digestBytes ++ c := by
  obtain ⟨m1, m2, m3, m4, m5, m6, m7, m8⟩ := meterSize_inert maxFS st c.length
  simp only [stepPart]
  unfold pipeWrite updateDigests
  split <;> simp [m1, m2, m3, m4, m5, m6, m7, m8]

/-- Event interleavings allowed by the Node stream semantics the handler
relies on: the source emits `data` and `end` only before end-of-part, and
the write stream emits `'finish'` only after `writer.end()` was called on a
non-destroyed stream (the handler calls `end()` in the part's `'end'`
handler, and the pipe is set up with `{end: false}`). -/
inductive WfPart (maxFS : Option Nat) : StreamState → List PartEv → Prop
  | nil {st} : WfPart maxFS st []
  | data {st c tr} : st.partEnded = false →
      WfPart maxFS (stepPart maxFS st (.data c)) tr →
      WfPart maxFS st (.data c :: tr)
  | partEnd {st tr} : st.partEnded = false →
      WfPart maxFS (stepPart maxFS st .partEnd) tr →
      WfPart maxFS st (.partEnd :: tr)
  | finish {st tr} : st.writerEnded = true → st.writerDestroyed = false →
      WfPart maxFS (stepPart maxFS st .writerFinish) tr →
      WfPart maxFS st (.writerFinish :: tr)
  | close {st tr} :
      WfPart maxFS (stepPart maxFS st .writerClose) tr →
      WfPart maxFS st (.writerClose :: tr)

/-- Invariant-carrying induction for the record-append property: from any
state whose digests and append fields are consistent, the final state's
appended record carries the digests of every byte received. -/
theorem runPart_append_inv (maxFS : Option Nat) (st : StreamState)
    (tr : List PartEv) (hwf : WfPart maxFS st tr)
    (hmd5 : st.md5 = if st.partEnded then some st.digestBytes else none)
    (hsha : st.sha256 = if st.partEnded then some st.digestBytes else none)
    (hwe : st.writerEnded = st.partEnded)
    (happ : st.appended = true →
      st.appendedMd5 = some st.digestBytes ∧
      st.appendedSha256 = some st.digestBytes ∧ st.partEnded = true) :
    (runPart maxFS st tr).appended = true →
      (st.appended = true ∨ PartEv.writerFinish ∈ tr) ∧
      (runPart maxFS st tr).appendedMd5 = some (st.digestBytes ++ partBytes tr) ∧
      (runPart maxFS st tr).appendedSha256 = some (st.digestBytes ++ partBytes tr) := by
  revert hmd5 hsha hwe happ
  induction hwf with
  | @nil st =>
    intro hmd5 hsha hwe happ hfin
    obtain ⟨h1, h2, -⟩ := happ hfin
    exact ⟨Or.inl hfin, by simpa [partBytes] using h1,
      by simpa [partBytes] using h2⟩
  | @data st c tr hne hwf ih =>
    intro hmd5 hsha hwe happ hfin
    rw [runPart_cons] at hfin
    obtain ⟨f1, f2, f3, f4, f5, f6, f7, f8⟩ := stepPart_data_inert maxFS st c
    have happ' : st.appended = false := by
      cases hA : st.appended
      · rfl
      · have := (happ hA).2.2
        rw [hne] at this
        exact Bool.noConfusion this
    have hmd5' : st.md5 = none := by simp [hmd5, hne]
    have hsha' : st.sha256 = none := by simp [hsha, hne]
    have ihres := ih (by rw [f1, f3, f8, hne, hmd5']; simp)
      (by rw [f2, f3, f8, hne, hsha']; simp)
      (by rw [f4, f3, hwe])
      (by rw [f5, happ']; intro h; exact Bool.noConfusion h)
    obtain ⟨hmem, hm5, hs5⟩ := ihres hfin
    refine ⟨?_, ?_, ?_⟩
    · rcases hmem with h | h
      · rw [f5, happ'] at h
        exact Bool.noConfusion h
      · exact Or.inr (List.mem_cons_of_mem _ h)
    · rw [runPart_cons, hm5, f8]
      simp [partBytes, List.append_assoc]
    · rw [runPart_cons, hs5, f8]
      simp [partBytes, List.append_assoc]
  | @partEnd st tr hne hwf ih =>
    intro hmd5 hsha hwe happ hfin
    rw [runPart_cons] at hfin
    have happ' : st.appended = false := by
      cases hA : st.appended
      · rfl
      · have := (happ hA).2.2
        rw [hne] at this
        exact Bool.noConfusion this
    have ihres := ih (by simp [stepPart]) (by simp [stepPart])
      (by simp [stepPart]) (by simp [stepPart, happ'])
    obtain ⟨hmem, hm5, hs5⟩ := ihres hfin
    refine ⟨?_, ?_, ?_⟩
    · rcases hmem with h | h
      · simp [stepPart, happ'] at h
      · exact Or.inr (List.mem_cons_of_mem _ h)
    · rw [runPart_cons, hm5]
      simp [stepPart, partBytes]
    · rw [runPart_cons, hs5]
      simp [stepPart, partBytes]
  | @finish st tr hend hnd hwf ih =>
    intro hmd5 hsha hwe happ hfin
    rw [runPart_cons] at hfin
    have hpe : st.partEnded = true := by rw [← hwe]; exact hend
    have hmd5' : st.md5 = some st.digestBytes := by simp [hmd5, hpe]
    have hsha' : st.sha256 = some st.digestBytes := by simp [hsha, hpe]
    have ihres := ih (by simpa [stepPart] using hmd5)
      (by simpa [stepPart] using hsha)
      (by simpa [stepPart] using hwe)
      (by
        intro _
        exact ⟨by simp [stepPart, hmd5'], by simp [stepPart, hsha'],
          by simp [stepPart, hpe]⟩)
    obtain ⟨-, hm5, hs5⟩ := ihres hfin
    refine ⟨Or.inr (List.mem_cons_self _ _), ?_, ?_⟩
    · rw [runPart_cons, hm5]
      simp [stepPart, partBytes]
    · rw [runPart_cons, hs5]
      simp [stepPart, partBytes]
  | @close st tr hwf ih =>
    intro hmd5 hsha hwe happ hfin
    rw [runPart_cons] at hfin
    have ihres := ih (by simpa [stepPart] using hmd5)
      (by simpa [stepPart] using hsha)
      (by simpa [stepPart] using hwe)
      (by simpa [stepPart] using happ)
    obtain ⟨hmem, hm5, hs5⟩ := ihres hfin
    refine ⟨?_, ?_, ?_⟩
    · rcases hmem with h | h
      · exact Or.inl (by simpa [stepPart] using h)
      · exact Or.inr (List.mem_cons_of_mem _ h)
    · rw [runPart_cons, hm5]
      simp [stepPart, partBytes]
    · rw [runPart_cons, hs5]
      simp [stepPart, partBytes]


/-- C4. For a file part, the result record is appended only after the
backend write stream's distinct `success` event (which the filesystem
provider emits on `'finish'` of the underlying write) — never merely on
stream close — and the appended record carries md5/sha256 digests finalized
over exactly the bytes received from the source. -/
theorem file_record_appended_after_success (maxFS : Option Nat)
    (tr : List PartEv) (hwf : WfPart maxFS initAccepted tr)
    (happ : (runPart maxFS initAccepted tr).appended = true) :
    PartEv.writerFinish ∈ tr ∧
    (runPart maxFS initAccepted tr).appendedMd5 = some (partBytes tr) ∧
    (runPart maxFS initAccepted tr).appendedSha256 = some (partBytes tr) := by
  have h := runPart_append_inv maxFS initAccepted tr hwf rfl rfl rfl
    (by intro h; exact absurd h (by decide)) happ
  obtain ⟨hmem, hm5, hs5⟩ := h
  refine ⟨?_, by simpa [initAccepted] using hm5, by simpa [initAccepted] using hs5⟩
  rcases hmem with h | h
  · exact absurd h (by decide)
  · exact h

/-- Witness for `file_record_appended_after_success`: the three-byte part
`[1,2,3]`, ended, then confirmed by the backend. -/
theorem file_record_appended_after_success_witness :
    PartEv.writerFinish ∈
      [PartEv.data [1, 2, 3], PartEv.partEnd, PartEv.writerFinish] ∧
    (runPart (some 10) initAccepted
      [PartEv.data [1, 2, 3], PartEv.partEnd, PartEv.writerFinish]).appendedMd5 =
      some [1, 2, 3] ∧
    (runPart (some 10) initAccepted
      [PartEv.data [1, 2, 3], PartEv.partEnd, PartEv.writerFinish]).appendedSha256 =
      some [1, 2, 3] :=
  file_record_appended_after_success (some 10)
    [PartEv.data [1, 2, 3], PartEv.partEnd, PartEv.writerFinish]
    (WfPart.data (by decide)
      (WfPart.partEnd (by decide)
        (WfPart.finish (by decide) (by decide) WfPart.nil)))
    (by decide)

/-! ## Size-cap enforcement and cleanup (C5) -/

/-- A `data` step taken from an errored state changes nothing observable:
`_error` is suppressed and the write is dropped on the destroyed stream. -/
theorem stepPart_data_error (m : Nat) (st : StreamState) (c : List Nat)
    (herr : st.formError.isSome = true) (hdes : st.writerDestroyed = true) :
    (stepPart (some m) st (.data c)).delivered = st.delivered ∧
    (stepPart (some m) st (.data c)).fsEntry = st.fsEntry ∧
    (stepPart (some m) st (.data c)).removeIssued = st.removeIssued ∧
    (stepPart (some m) st (.data c)).writerDestroyed = true ∧
    (stepPart (some m) st (.data c)).appended = st.appended ∧
    (stepPart (some m) st (.data c)).formError = st.formError := by
  simp only [stepPart]
  unfold meterSize
  dsimp only
  split
  · unfold formRaiseError updateDigests pipeWrite
    simp [herr, hdes]
  · unfold updateDigests pipeWrite
    simp [hdes]

/-- Once errored, further source chunks leave the delivered errors, the
deleted backend object and the append state untouched. -/
theorem runPart_post_error (m : Nat) (chunks : List (List Nat))
    (st : StreamState)
    (herr : st.formError.isSome = true) (hdes : st.writerDestroyed = true) :
    (runPart (some m) st (chunks.map PartEv.data)).delivered = st.delivered ∧
    (runPart (some m) st (chunks.map PartEv.data)).fsEntry = st.fsEntry ∧
    (runPart (some m) st (chunks.map PartEv.data)).removeIssued = st.removeIssued ∧
    (runPart (some m) st (chunks.map PartEv.data)).writerDestroyed = true ∧
    (runPart (some m) st (chunks.map PartEv.data)).appended = st.appended ∧
    (runPart (some m) st (chunks.map PartEv.data)).formError = st.formError := by
  induction chunks generalizing st with
  | nil => exact ⟨rfl, rfl, rfl, hdes, rfl, rfl⟩
  | cons c rest ih =>
    obtain ⟨e1, e2, e3, e4, e5, e6⟩ := stepPart_data_error m st c herr hdes
    have ihres := ih (stepPart (some m) st (.data c))
      (by rw [e6]; exact herr) e4
    obtain ⟨p1, p2, p3, p4, p5, p6⟩ := ihres
    simp only [List.map_cons, runPart_cons]
    exact ⟨p1.trans e1, p2.trans e2, p3.trans e3, p4, p5.trans e5, p6.trans e6⟩

/-- The chunk that pushes the byte counter over the cap raises the one
`sizeExceeded` error: it is recorded and delivered, the writer destroyed,
and the partially written backend object removed. -/
theorem stepPart_data_trigger (m : Nat) (st : StreamState) (c : List Nat)
    (hclean : st.formError = none) (hexc : m < st.fileSize + c.length)
    (hop : st.writerOpened = true) :
    (stepPart (some m) st (.data c)).delivered =
      st.delivered ++ [.sizeExceeded (st.fileSize + c.length) m] ∧
    (stepPart (some m) st (.data c)).formError =
      some (.sizeExceeded (st.fileSize + c.length) m) ∧
    (stepPart (some m) st (.data c)).fsEntry = none ∧
    (stepPart (some m) st (.data c)).removeIssued = true ∧
    (stepPart (some m) st (.data c)).writerDestroyed = true ∧
    (stepPart (some m) st (.data c)).appended = st.appended := by
  simp only [stepPart]
  unfold meterSize
  dsimp only
  rw [if_pos hexc]
  unfold formRaiseError updateDigests pipeWrite
  simp [hclean, hop]

/-- A chunk under the cap extends the counter, digests and backend object. -/
theorem stepPart_data_under (m : Nat) (st : StreamState) (c : List Nat)
    (hnoexc : ¬ m < st.fileSize + c.length) (hdes : st.writerDestroyed = false) :
    stepPart (some m) st (.data c) =
      { st with fileSize := st.fileSize + c.length,
                digestBytes := st.digestBytes ++ c,
                fsEntry := some (st.fsEntry.getD [] ++ c) } := by
  simp only [stepPart]
  unfold meterSize
  dsimp only
  rw [if_neg hnoexc]
  unfold updateDigests pipeWrite
  simp [hdes]

/-- Generalised size-cap run: from a clean under-cap state, a chunk sequence
whose total pushes the counter over the cap delivers exactly one
`sizeExceeded` error, destroys the writer and removes the backend object. -/
theorem runPart_size_exceeded (m : Nat) (chunks : List (List Nat))
    (st : StreamState)
    (hclean : st.formError = none) (hdel : st.delivered = [])
    (hop : st.writerOpened = true) (hdes : st.writerDestroyed = false)
    (happ : st.appended = false) (hfs : st.fileSize ≤ m)
    (hexc : m < st.fileSize + (chunks.map List.length).sum) :
    (∃ n, m < n ∧
      (runPart (some m) st (chunks.map PartEv.data)).delivered =
        [.sizeExceeded n m]) ∧
    (runPart (some m) st (chunks.map PartEv.data)).formError.isSome = true ∧
    (runPart (some m) st (chunks.map PartEv.data)).fsEntry = none ∧
    (runPart (some m) st (chunks.map PartEv.data)).removeIssued = true ∧
    (runPart (some m) st (chunks.map PartEv.data)).writerDestroyed = true ∧
    (runPart (some m) st (chunks.map PartEv.data)).appended = false := by
  induction chunks generalizing st with
  | nil =>
    exfalso
    simp only [List.map_nil, List.sum_nil] at hexc
    omega
  | cons c rest ih =>
    simp only [List.map_cons, runPart_cons]
    by_cases htrig : m < st.fileSize + c.length
    · obtain ⟨t1, t2, t3, t4, t5, t6⟩ := stepPart_data_trigger m st c hclean htrig hop
      obtain ⟨p1, p2, p3, p4, p5, p6⟩ :=
        runPart_post_error m rest (stepPart (some m) st (.data c))
          (by rw [t2]; rfl) t5
      refine ⟨⟨st.fileSize + c.length, htrig, ?_⟩, ?_, ?_, ?_, ?_, ?_⟩
      · rw [p1, t1, hdel]
        simp
      · rw [p6, t2]
        rfl
      · rw [p2, t3]
      · rw [p3, t4]
      · exact p4
      · rw [p5, t6, happ]
    · have hstep := stepPart_data_under m st c htrig hdes
      have ihres := ih (stepPart (some m) st (.data c))
        (by rw [hstep]; exact hclean) (by rw [hstep]; exact hdel)
        (by rw [hstep]; exact hop) (by rw [hstep]; exact hdes)
        (by rw [hstep]; exact happ)
        (by rw [hstep]; simp; omega)
        (by
          rw [hstep]
          dsimp only
          simp only [List.map_cons, List.sum_cons] at hexc
          omega)
      exact ihres

/-- C5. A file part whose cumulative byte count exceeds the effective
`maxFileSize` is rejected with the size-exceeded error; exactly one error is
delivered for the upload (the first — later `_error` calls are suppressed),
the writer is destroyed, the partially written backend object is removed
(so a listing shows no residual partial file), and no file record is ever
appended. -/
theorem sizeExceeded_single_error_cleanup (m : Nat) (chunks : List (List Nat))
    (hexc : m < (chunks.map List.length).sum) :
    (∃ n, m < n ∧
      (runPart (some m) initAccepted (chunks.map PartEv.data)).delivered =
        [.sizeExceeded n m]) ∧
    (runPart (some m) initAccepted (chunks.map PartEv.data)).delivered.length = 1 ∧
    (runPart (some m) initAccepted (chunks.map PartEv.data)).fsEntry = none ∧
    (runPart (some m) initAccepted (chunks.map PartEv.data)).removeIssued = true ∧
    (runPart (some m) initAccepted (chunks.map PartEv.data)).writerDestroyed = true ∧
    (runPart (some m) initAccepted (chunks.map PartEv.data)).appended = false := by
  have h := runPart_size_exceeded m chunks initAccepted rfl rfl rfl rfl rfl
    (by simp [initAccepted]) (by simpa [initAccepted] using hexc)
  obtain ⟨⟨n, hn, hdeliv⟩, h2, h3, h4, h5, h6⟩ := h
  exact ⟨⟨n, hn, hdeliv⟩, by rw [hdeliv]; rfl, h3, h4, h5, h6⟩

/-- Witness for `sizeExceeded_single_error_cleanup`: cap 5, two chunks of
three bytes. -/
theorem sizeExceeded_single_error_cleanup_witness :
    (∃ n, 5 < n ∧
      (runPart (some 5) initAccepted
        ([[1, 2, 3], [4, 5, 6]].map PartEv.data)).delivered =
        [.sizeExceeded n 5]) ∧
    (runPart (some 5) initAccepted
      ([[1, 2, 3], [4, 5, 6]].map PartEv.data)).delivered.length = 1 ∧
    (runPart (some 5) initAccepted
      ([[1, 2, 3], [4, 5, 6]].map PartEv.data)).fsEntry = none ∧
    (runPart (some 5) initAccepted
      ([[1, 2, 3], [4, 5, 6]].map PartEv.data)).removeIssued = true ∧
    (runPart (some 5) initAccepted
      ([[1, 2, 3], [4, 5, 6]].map PartEv.data)).writerDestroyed = true ∧
    (runPart (some 5) initAccepted
      ([[1, 2, 3], [4, 5, 6]].map PartEv.data)).appended = false :=
  sizeExceeded_single_error_cleanup 5 [[1, 2, 3], [4, 5, 6]] (by decide)

/-! ## The full file-part pipeline: decision phase then streaming -/

/-- Process one file part end to end: run the decision phase; a rejection
goes through `self._error` with no writer ever opened, while an accepted
part opens the backend write stream and streams its events. -/
def runFilePart (opts : UploadOptions)
    (container filename extname mime fieldName uuidName : String)
    (evs : List PartEv) : StreamState :=
  match decideFilePart opts container filename extname mime fieldName uuidName with
  | .error e => formRaiseError {} e
  | .ok (_, maxFS) => runPart maxFS initAccepted evs

/-- The renaming step never changes the declared content type. -/
theorem computeFileRecord_type (opts : UploadOptions)
    (container filename extname mime fieldName uuidName : String) :
    (computeFileRecord opts container filename extname mime fieldName uuidName).type
      = mime := by
  unfold computeFileRecord
  cases opts.getFilename with
  | some f => rfl
  | none =>
    dsimp only
    split <;> rfl

/-- C8 fails on the code for an empty resolved list: with
`allowedContentTypes: []` configured, `"image/png"` is not a member of the
list, yet the `length !== 0` guard skips the check, the part is accepted,
the backend writer opened, and its bytes persisted. -/
theorem allowedContentTypes_empty_list_ctrex :
    ("image/png" ∈ ([] : List String) → False) ∧
    decideFilePart { allowedContentTypes := .fixed [] }
        "c1" "a.png" ".png" "image/png" "file" "u1" =
      .ok ({ container := "c1", name := "a.png", type := "image/png",
             field := "file" }, some (10 * 1024 * 1024)) ∧
    (runFilePart { allowedContentTypes := .fixed [] }
        "c1" "a.png" ".png" "image/png" "file" "u1"
        [PartEv.data [7]]).fsEntry = some [7] := by
  refine ⟨by simp, by rfl, by rfl⟩

/-- C8 as amended. Whenever `allowedContentTypes` is configured and resolves
(statically or by calling the configured function) to a non-empty list not
containing the part's declared content type — and the extension check did
not already reject the part — the part is rejected with the
content-type-not-allowed error before the backend writer is opened, so no
bytes are ever persisted. (An empty resolved list disables the check.) -/
theorem allowedContentTypes_enforced (opts : UploadOptions)
    (container filename extname mime fieldName uuidName : String)
    (evs : List PartEv) (list : List String)
    (hext : checkExtname opts.forbidExtnames extname = none)
    (hres : opts.allowedContentTypes.resolve
      (computeFileRecord opts container filename extname mime fieldName uuidName)
      = some list)
    (hne : list ≠ [])
    (hmem : ¬ list.contains mime = true) :
    decideFilePart opts container filename extname mime fieldName uuidName =
      .error (.contentTypeNotAllowed mime list) ∧
    (runFilePart opts container filename extname mime fieldName uuidName evs).fsEntry
      = none ∧
    (runFilePart opts container filename extname mime fieldName uuidName evs).writerOpened
      = false ∧
    (runFilePart opts container filename extname mime fieldName uuidName evs).formError
      = some (.contentTypeNotAllowed mime list) := by
  have hdec : decideFilePart opts container filename extname mime fieldName uuidName =
      .error (.contentTypeNotAllowed mime list) := by
    unfold decideFilePart
    rw [hext]
    dsimp only
    have hct : checkContentTypes opts.allowedContentTypes
        (computeFileRecord opts container filename extname mime fieldName uuidName) =
        some (.contentTypeNotAllowed mime list) := by
      unfold checkContentTypes
      rw [hres]
      dsimp only
      rw [if_pos hne, computeFileRecord_type, if_neg hmem]
    rw [hct]
  refine ⟨hdec, ?_, ?_, ?_⟩ <;>
    · unfold runFilePart
      rw [hdec]
      rfl

/-- Witness for `allowedContentTypes_enforced`: a static `["image/jpeg"]`
list against a declared type `text/html`. -/
theorem allowedContentTypes_enforced_witness :
    decideFilePart { allowedContentTypes := .fixed ["image/jpeg"] }
        "c1" "evil.html" ".html" "text/html" "file" "u1" =
      .error (.contentTypeNotAllowed "text/html" ["image/jpeg"]) ∧
    (runFilePart { allowedContentTypes := .fixed ["image/jpeg"] }
        "c1" "evil.html" ".html" "text/html" "file" "u1"
        [PartEv.data [7]]).fsEntry = none ∧
    (runFilePart { allowedContentTypes := .fixed ["image/jpeg"] }
        "c1" "evil.html" ".html" "text/html" "file" "u1"
        [PartEv.data [7]]).writerOpened = false ∧
    (runFilePart { allowedContentTypes := .fixed ["image/jpeg"] }
        "c1" "evil.html" ".html" "text/html" "file" "u1"
        [PartEv.data [7]]).formError =
      some (.contentTypeNotAllowed "text/html" ["image/jpeg"]) :=
  allowedContentTypes_enforced { allowedContentTypes := .fixed ["image/jpeg"] }
    "c1" "evil.html" ".html" "text/html" "file" "u1" [PartEv.data [7]]
    ["image/jpeg"] (by decide) (by decide) (by decide) (by decide)

/-! ## Download completion callback (C6)

`exports.download` registers `'error'` and `'end'` handlers on the backend
read stream; each invokes the callback and then replaces it by a no-op
(`cb = function() {}`), making it a one-shot. A delivery of `some e` is a
callback invocation with the (translated) error, `none` an invocation with
no error. -/

/-- The stream-completion events `exports.download` reacts to. -/
inductive ReadEv where
  | error (e : JsError)
  | endEv
deriving DecidableEq, Repr

/-- The sequence of callback deliveries produced by a sequence of stream
events; `active` is whether `cb` still holds the caller's function. -/
def cbDeliveries (remote : String) : List ReadEv → Bool → List (Option JsError)
  | [], _ => []
  | .error e :: rest, active =>
    if active then some (processError e remote) :: cbDeliveries remote rest false
    else cbDeliveries remote rest false
  | .endEv :: rest, active =>
    if active then none :: cbDeliveries remote rest false
    else cbDeliveries remote rest false

/-- The deliveries of one `download` invocation whose read stream emits the
given events. -/
def downloadCbCalls (remote : String) (evs : List ReadEv) : List (Option JsError) :=
  cbDeliveries remote evs true

/-- Once the callback has been replaced by the no-op, nothing is ever
delivered again. -/
theorem cbDeliveries_inactive (remote : String) (evs : List ReadEv) :
    cbDeliveries remote evs false = [] := by
  induction evs with
  | nil => rfl
  | cons e rest ih =>
    cases e with
    | error e => simpa [cbDeliveries] using ih
    | endEv => simpa [cbDeliveries] using ih

/-- C6. The download completion callback is invoked exactly once when the
stream errors or ends — with the translated error of the first event if it
is an error, with no error if it is normal completion — and never twice,
for every interleaving of subsequent `'error'`/`'end'` events. -/
theorem download_cb_exactly_once (remote : String) (evs : List ReadEv) :
    (downloadCbCalls remote evs = [] ↔ evs = []) ∧
    (downloadCbCalls remote evs).length ≤ 1 ∧
    (∀ e rest, evs = ReadEv.error e :: rest →
      downloadCbCalls remote evs = [some (processError e remote)]) ∧
    (∀ rest, evs = ReadEv.endEv :: rest →
      downloadCbCalls remote evs = [none]) := by
  refine ⟨?_, ?_, ?_, ?_⟩
  · cases evs with
    | nil => simp [downloadCbCalls, cbDeliveries]
    | cons e rest =>
      cases e <;>
        simp [downloadCbCalls, cbDeliveries, cbDeliveries_inactive]
  · cases evs with
    | nil => simp [downloadCbCalls, cbDeliveries]
    | cons e rest =>
      cases e <;>
        simp [downloadCbCalls, cbDeliveries, cbDeliveries_inactive]
  · rintro e rest rfl
    simp [downloadCbCalls, cbDeliveries, cbDeliveries_inactive]
  · rintro rest rfl
    simp [downloadCbCalls, cbDeliveries, cbDeliveries_inactive]

/-- Witness for `download_cb_exactly_once`: an `'end'` followed by a late
`'error'` delivers exactly one success call. -/
theorem download_cb_exactly_once_witness :
    downloadCbCalls "f.txt"
      [ReadEv.endEv, ReadEv.error ⟨some "ENOENT", "gone", none, none⟩] = [none] :=
  (download_cb_exactly_once "f.txt"
      [ReadEv.endEv, ReadEv.error ⟨some "ENOENT", "gone", none, none⟩]).2.2.2
    [ReadEv.error ⟨some "ENOENT", "gone", none, none⟩] rfl

/-! ## Provider operation traces (C3)

Each `FileSystemProvider` operation is rendered as the ordered list of the
name validations, path constructions (`path.join`) and filesystem calls it
performs, read off the source line by line; callbacks of successful
filesystem calls are assumed to fire (directory contents are parameters).
Paths are kept as segment lists, the first segment being the provider
root. -/

/-- One observable step of a provider operation. -/
inductive Step where
  | validate (name : String) (ok : Bool)
  | joinPath (segs : List String)
  | fsCall (op : String) (segs : List String)
deriving DecidableEq, Repr

/-- Shorthand for running the validator on a name. -/
def vstep (n : String) : Step := .validate n (validateName n)

/-- `createContainer(options, cb)`: the path is joined *before* the
validator runs; `fs.mkdir` and the follow-up `fs.stat` only when it
passes. -/
def createContainerTrace (root name : String) : List Step :=
  .joinPath [root, name] :: vstep name ::
    (if validateName name then
      [.fsCall "mkdir" [root, name], .fsCall "stat" [root, name]]
     else [])

/-- `getContainer(containerName, cb)`. -/
def getContainerTrace (root name : String) : List Step :=
  vstep name ::
    (if validateName name then
      [.joinPath [root, name], .fsCall "stat" [root, name]]
     else [])

/-- `destroyContainer(containerName, cb)`: readdir, unlink every member,
then rmdir. -/
def destroyContainerTrace (root name : String) (members : List String) :
    List Step :=
  vstep name ::
    (if validateName name then
      .joinPath [root, name] :: .fsCall "readdir" [root, name] ::
        (members.map (fun f => .fsCall "unlink" [root, name, f]) ++
          [.fsCall "rmdir" [root, name]])
     else [])

/-- `getFiles(container, options, cb)`: readdir then stat of each entry. -/
def getFilesTrace (root container : String) (entries : List String) :
    List Step :=
  vstep container ::
    (if validateName container then
      .joinPath [root, container] :: .fsCall "readdir" [root, container] ::
        entries.map (fun f => .fsCall "stat" [root, container, f])
     else [])

/-- `getFile(container, file, cb)`. -/
def getFileTrace (root container file : String) : List Step :=
  vstep container ::
    (if validateName container then
      vstep file ::
        (if validateName file then
          [.joinPath [root, container, file],
           .fsCall "stat" [root, container, file]]
         else [])
     else [])

/-- `removeFile(container, file, cb)`. -/
def removeFileTrace (root container file : String) : List Step :=
  vstep container ::
    (if validateName container then
      vstep file ::
        (if validateName file then
          [.joinPath [root, container, file],
           .fsCall "unlink" [root, container, file]]
         else [])
     else [])

/-- `upload(options, cb)`: both names validated, then the write stream is
created. -/
def uploadTrace (root container file : String) : List Step :=
  vstep container ::
    (if validateName container then
      vstep file ::
        (if validateName file then
          [.joinPath [root, container, file],
           .fsCall "createWriteStream" [root, container, file]]
         else [])
     else [])

/-- `download(options, cb)`: both names validated, then the read stream is
created. -/
def downloadTrace (root container file : String) : List Step :=
  vstep container ::
    (if validateName container then
      vstep file ::
        (if validateName file then
          [.joinPath [root, container, file],
           .fsCall "createReadStream" [root, container, file]]
         else [])
     else [])

/-- `getUrl(options)`: joins `root/container/path` and returns it — no
validation and no filesystem call at all. -/
def getUrlTrace (root container p : String) : List Step :=
  [.joinPath [root, container, p]]

/-- `getUrl`'s return value. -/
def getUrlResult (root container p : String) : String :=
  pathJoin [root, container, p]

/-- Whether a step is a filesystem call. -/
def isFsCall : Step → Bool
  | .fsCall _ _ => true
  | _ => false

/-- The filesystem calls of a trace. -/
def fsCalls (tr : List Step) : List Step := tr.filter isFsCall

/-- Whether a trace runs the validator at all. -/
def hasValidate (tr : List Step) : Bool :=
  tr.any fun s =>
    match s with
    | .validate _ _ => true
    | _ => false

/-- A trace validates the given user-supplied names before its filesystem
calls: scanning left to right, every filesystem call whose path mentions
one of the names is preceded by a successful validation of that name. -/
def validatedBeforeFs (userNames : List String) :
    List Step → List String → Bool
  | [], _ => true
  | .validate n true :: rest, seen => validatedBeforeFs userNames rest (n :: seen)
  | .validate _ false :: rest, seen => validatedBeforeFs userNames rest seen
  | .joinPath _ :: rest, seen => validatedBeforeFs userNames rest seen
  | .fsCall _ segs :: rest, seen =>
    userNames.all (fun n => !segs.contains n || seen.contains n) &&
      validatedBeforeFs userNames rest seen

/-- The outcome of an operation on two user-supplied names, abstracting the
filesystem itself: an `Invalid name` error, or the go-ahead. -/
def twoNameResult (container file : String) : Except String Unit :=
  if validateName container then
    if validateName file then .ok ()
    else .error ("Invalid name: " ++ file)
  else .error ("Invalid name: " ++ container)

/-- The outcome of an operation on one user-supplied name. -/
def oneNameResult (name : String) : Except String Unit :=
  if validateName name then .ok () else .error ("Invalid name: " ++ name)

/-- C3 fails on the code: `getUrl` is in the claim's operation list, but it
never runs the validator — for the traversal container name `..` it happily
constructs and returns the path under the storage root instead of failing,
and its trace contains no validation step. -/
theorem getUrl_skips_validation :
    validateName ".." = false ∧
    getUrlTrace "/storage" ".." "secret" =
      [Step.joinPath ["/storage", "..", "secret"]] ∧
    hasValidate (getUrlTrace "/storage" ".." "secret") = false ∧
    getUrlResult "/storage" ".." "secret" = "/storage/../secret" := by
  refine ⟨by decide, rfl, rfl, by decide⟩

/-- A run of filesystem calls all of whose user-name mentions are already
validated passes the scan. -/
theorem validatedBeforeFs_of_forall (userNames : List String)
    (calls : List Step) (seen : List String)
    (h : ∀ s ∈ calls, ∃ op segs, s = Step.fsCall op segs ∧
      userNames.all (fun n => !segs.contains n || seen.contains n) = true) :
    validatedBeforeFs userNames calls seen = true := by
  induction calls with
  | nil => rfl
  | cons s rest ih =>
    obtain ⟨op, segs, rfl, hall⟩ := h s (List.mem_cons_self _ _)
    simp only [validatedBeforeFs, Bool.and_eq_true]
    exact ⟨hall, ih fun x hx => h x (List.mem_cons_of_mem _ hx)⟩

/-- C3 as amended. For `getContainer`, `destroyContainer`, `getFiles`,
`getFile`, `removeFile`, `upload` and `download` the validator runs on
every incorporated name before any filesystem call that mentions it, and an
invalid name makes the operation fail with an `Invalid name` error without
any filesystem action; `createContainer` joins the path from the name
*before* validating it, but still makes no filesystem call and fails with
the error when the name is invalid; `getUrl` runs no validation at all and
returns the constructed path unconditionally. -/
theorem provider_validation_amended (root c f p : String)
    (members entries : List String) :
    (validatedBeforeFs [c] (getContainerTrace root c) [] = true ∧
     validatedBeforeFs [c] (createContainerTrace root c) [] = true ∧
     validatedBeforeFs [c] (destroyContainerTrace root c members) [] = true ∧
     validatedBeforeFs [c] (getFilesTrace root c entries) [] = true ∧
     validatedBeforeFs [c, f] (getFileTrace root c f) [] = true ∧
     validatedBeforeFs [c, f] (removeFileTrace root c f) [] = true ∧
     validatedBeforeFs [c, f] (uploadTrace root c f) [] = true ∧
     validatedBeforeFs [c, f] (downloadTrace root c f) [] = true) ∧
    (validateName c = false →
      fsCalls (getContainerTrace root c) = [] ∧
      fsCalls (createContainerTrace root c) = [] ∧
      fsCalls (destroyContainerTrace root c members) = [] ∧
      fsCalls (getFilesTrace root c entries) = [] ∧
      fsCalls (getFileTrace root c f) = [] ∧
      fsCalls (removeFileTrace root c f) = [] ∧
      fsCalls (uploadTrace root c f) = [] ∧
      fsCalls (downloadTrace root c f) = [] ∧
      oneNameResult c = .error ("Invalid name: " ++ c) ∧
      twoNameResult c f = .error ("Invalid name: " ++ c)) ∧
    (validateName f = false →
      fsCalls (getFileTrace root c f) = [] ∧
      fsCalls (removeFileTrace root c f) = [] ∧
      fsCalls (uploadTrace root c f) = [] ∧
      fsCalls (downloadTrace root c f) = [] ∧
      (validateName c = true →
        twoNameResult c f = .error ("Invalid name: " ++ f))) ∧
    (createContainerTrace root c).head? = some (.joinPath [root, c]) ∧
    hasValidate (getUrlTrace root c p) = false := by
  have hone : ∀ n : String, validateName n = false →
      oneNameResult n = .error ("Invalid name: " ++ n) := by
    intro n hn
    unfold oneNameResult
    rw [hn]
    rfl
  refine ⟨⟨?_, ?_, ?_, ?_, ?_, ?_, ?_, ?_⟩, ?_, ?_, ?_, ?_⟩
  · by_cases hc : validateName c = true
    · simp [getContainerTrace, vstep, hc, validatedBeforeFs]
    · simp only [Bool.not_eq_true] at hc
      simp [getContainerTrace, vstep, hc, validatedBeforeFs]
  · by_cases hc : validateName c = true
    · simp [createContainerTrace, vstep, hc, validatedBeforeFs]
    · simp only [Bool.not_eq_true] at hc
      simp [createContainerTrace, vstep, hc, validatedBeforeFs]
  · by_cases hc : validateName c = true
    · simp only [destroyContainerTrace, vstep, hc, if_pos rfl, validatedBeforeFs]
      rw [Bool.and_eq_true]
      refine ⟨by simp, ?_⟩
      apply validatedBeforeFs_of_forall
      intro s hs
      rcases List.mem_append.mp hs with hs | hs
      · obtain ⟨mem, -, rfl⟩ := List.mem_map.mp hs
        exact ⟨"unlink", [root, c, mem], rfl, by simp⟩
      · rcases List.mem_singleton.mp hs with rfl
        exact ⟨"rmdir", [root, c], rfl, by simp⟩
    · simp only [Bool.not_eq_true] at hc
      simp [destroyContainerTrace, vstep, hc, validatedBeforeFs]
  · by_cases hc : validateName c = true
    · simp only [getFilesTrace, vstep, hc, if_pos rfl, validatedBeforeFs]
      rw [Bool.and_eq_true]
      refine ⟨by simp, ?_⟩
      apply validatedBeforeFs_of_forall
      intro s hs
      obtain ⟨ent, -, rfl⟩ := List.mem_map.mp hs
      exact ⟨"stat", [root, c, ent], rfl, by simp⟩
    · simp only [Bool.not_eq_true] at hc
      simp [getFilesTrace, vstep, hc, validatedBeforeFs]
  · by_cases hc : validateName c = true
    · by_cases hf : validateName f = true
      · simp [getFileTrace, vstep, hc, hf, validatedBeforeFs]
      · simp only [Bool.not_eq_true] at hf
        simp [getFileTrace, vstep, hc, hf, validatedBeforeFs]
    · simp only [Bool.not_eq_true] at hc
      simp [getFileTrace, vstep, hc, validatedBeforeFs]
  · by_cases hc : validateName c = true
    · by_cases hf : validateName f = true
      · simp [removeFileTrace, vstep, hc, hf, validatedBeforeFs]
      · simp only [Bool.not_eq_true] at hf
        simp [removeFileTrace, vstep, hc, hf, validatedBeforeFs]
    · simp only [Bool.not_eq_true] at hc
      simp [removeFileTrace, vstep, hc, validatedBeforeFs]
  · by_cases hc : validateName c = true
    · by_cases hf : validateName f = true
      · simp [uploadTrace, vstep, hc, hf, validatedBeforeFs]
      · simp only [Bool.not_eq_true] at hf
        simp [uploadTrace, vstep, hc, hf, validatedBeforeFs]
    · simp only [Bool.not_eq_true] at hc
      simp [uploadTrace, vstep, hc, validatedBeforeFs]
  · by_cases hc : validateName c = true
    · by_cases hf : validateName f = true
      · simp [downloadTrace, vstep, hc, hf, validatedBeforeFs]
      · simp only [Bool.not_eq_true] at hf
        simp [downloadTrace, vstep, hc, hf, validatedBeforeFs]
    · simp only [Bool.not_eq_true] at hc
      simp [downloadTrace, vstep, hc, validatedBeforeFs]
  · intro hc
    refine ⟨?_, ?_, ?_, ?_, ?_, ?_, ?_, ?_, hone c hc, ?_⟩
    · simp [getContainerTrace, vstep, hc, fsCalls, isFsCall]
    · simp [createContainerTrace, vstep, hc, fsCalls, isFsCall]
    · simp [destroyContainerTrace, vstep, hc, fsCalls, isFsCall]
    · simp [getFilesTrace, vstep, hc, fsCalls, isFsCall]
    · simp [getFileTrace, vstep, hc, fsCalls, isFsCall]
    · simp [removeFileTrace, vstep, hc, fsCalls, isFsCall]
    · simp [uploadTrace, vstep, hc, fsCalls, isFsCall]
    · simp [downloadTrace, vstep, hc, fsCalls, isFsCall]
    · unfold twoNameResult
      rw [hc]
      rfl
  · intro hf
    refine ⟨?_, ?_, ?_, ?_, ?_⟩
    · by_cases hc : validateName c = true
      · simp [getFileTrace, vstep, hc, hf, fsCalls, isFsCall]
      · simp only [Bool.not_eq_true] at hc
        simp [getFileTrace, vstep, hc, fsCalls, isFsCall]
    · by_cases hc : validateName c = true
      · simp [removeFileTrace, vstep, hc, hf, fsCalls, isFsCall]
      · simp only [Bool.not_eq_true] at hc
        simp [removeFileTrace, vstep, hc, fsCalls, isFsCall]
    · by_cases hc : validateName c = true
      · simp [uploadTrace, vstep, hc, hf, fsCalls, isFsCall]
      · simp only [Bool.not_eq_true] at hc
        simp [uploadTrace, vstep, hc, fsCalls, isFsCall]
    · by_cases hc : validateName c = true
      · simp [downloadTrace, vstep, hc, hf, fsCalls, isFsCall]
      · simp only [Bool.not_eq_true] at hc
        simp [downloadTrace, vstep, hc, fsCalls, isFsCall]
    · intro hc
      unfold twoNameResult
      rw [hc, hf]
      rfl
  · rfl
  · rfl

/-- Witness for the fail-closed part of `provider_validation_amended` at the
concrete invalid container name `..`. -/
theorem provider_validation_amended_witness :
    fsCalls (getContainerTrace "/r" "..") = [] ∧
    fsCalls (createContainerTrace "/r" "..") = [] ∧
    fsCalls (destroyContainerTrace "/r" ".." []) = [] ∧
    fsCalls (getFilesTrace "/r" ".." []) = [] ∧
    fsCalls (getFileTrace "/r" ".." "x") = [] ∧
    fsCalls (removeFileTrace "/r" ".." "x") = [] ∧
    fsCalls (uploadTrace "/r" ".." "x") = [] ∧
    fsCalls (downloadTrace "/r" ".." "x") = [] ∧
    oneNameResult ".." = .error ("Invalid name: " ++ "..") ∧
    twoNameResult ".." "x" = .error ("Invalid name: " ++ "..") :=
  (provider_validation_amended "/r" ".." "x" "y" [] []).2.1 (by decide)

end Storage
